import Mathlib

/-
Verification development for the four-word-networking word-list pipeline.

Shallow embedding of the relevant parts of:
  - src/letter_wordlist_generator.py   (is_valid, trim_to_target, the main
    convergence loop, the per-letter generation loop in alphabet_pass)
  - src/create_truly_readable_dictionary.py   (generate_all_forms)
  - src/wordlist_openai_improver.py    (refine_wordlist and its helpers)
  - src/scripts/fix_dictionary_size.py (fix_dictionary_size)

Modelling conventions, used throughout:
  - Python strings are Lean String values; character-level operations go
    through String.toList.  Lean Char.isAlpha recognises exactly the ASCII
    letters, so it models the conjunction of Python str.isalpha with the
    all-code-points-below-128 checks that the scripts pair it with; the
    scripts only ever feed ASCII word lists.
  - wordfreq.zipf_frequency is an external corpus lookup; it is modelled as
    an explicit parameter freq : String -> Rat.  Only order comparisons on
    the returned scores occur in the sources, so Rat is a faithful carrier.
  - Python sets are modelled as duplicate-free lists; set membership is list
    membership, set add is insertion-if-absent.  Python set iteration order
    is unspecified, and where a source iterates over a set the model fixes
    one enumeration; no claim below depends on that order.
  - The OpenAI transport is a black box: per batch the model receives the
    number of failed attempts before the first successful call and the
    parsed shape of that call's response.
  - File and console output, progress bars and the CSV change log are not
    modelled; a run that writes its output file is a run whose embedding
    returns some value.
-/

/-- Lexicographic comparison of char lists by code point, the order Python
uses to compare strings.  (Defined structurally so that the kernel can
evaluate it; the library order on String is not kernel-reducible.) -/
def listLe : List Char → List Char → Bool
  | [], _ => true
  | _ :: _, [] => false
  | a :: as, b :: bs => if a < b then true else if b < a then false else listLe as bs

/-- Python string comparison s1 <= s2. -/
def strLe (a b : String) : Bool := listLe a.toList b.toList

/-- Python set.add on a set modelled as a duplicate-free list. -/
def insertSet (s : List String) (x : String) : List String :=
  if x ∈ s then s else s ++ [x]

namespace LetterGen

/-- The compiled pattern of make_word_re (letter_wordlist_generator.py:101):
fullmatch of [a-z]{min,max}, i.e. only lowercase ASCII letters and a length
inside the window. -/
def make_word_re (minLen maxLen : ℕ) (w : String) : Bool :=
  decide (minLen ≤ w.length) && decide (w.length ≤ maxLen) &&
    w.toList.all (fun c => decide ('a' ≤ c) && decide (c ≤ 'z'))

/-- DEFAULT_BANNED (letter_wordlist_generator.py:104). -/
def DEFAULT_BANNED : List String :=
  ["cunt", "damn", "shit", "fuck", "dick", "twat", "piss", "arse", "crap",
   "bitch", "bastard", "bollock", "bollocks", "bugger", "wank", "prick"]

/-- word[0].isupper() on a possibly empty word; Python would raise on the
empty string, which the regex gate rules out for any positive min length. -/
def firstIsUpper (w : String) : Bool :=
  match w.toList with
  | [] => false
  | c :: _ => c.isUpper

/-- is_valid (letter_wordlist_generator.py:110-125), with the external
zipf_frequency lookup passed in as freq. -/
def is_valid (freq : String → ℚ) (word : String) (freqThreshold : ℚ)
    (banned : List String) (minLen maxLen : ℕ) (allowProper : Bool) : Bool :=
  if word ∈ banned then false
  else if !make_word_re minLen maxLen word then false
  else if freq word < freqThreshold then false
  else if !allowProper && firstIsUpper word then false
  else true

/-- The total order used by trim_to_target: Python list.sort(reverse=True)
on (zipf_frequency(w), w) pairs puts higher frequency first and, on equal
frequency, the lexicographically larger word first. -/
def trimRel (a b : ℚ × String) : Prop :=
  b.1 < a.1 ∨ (a.1 = b.1 ∧ strLe b.2 a.2 = true)

instance : DecidableRel trimRel := fun a b => by
  unfold trimRel; infer_instance

/-- trim_to_target (letter_wordlist_generator.py:225-233): score the words
that match the length pattern, sort descending (frequency first, ties by
descending text), keep the first target entries. -/
def trim_to_target (freq : String → ℚ) (words : List String) (target : ℕ)
    (minLen maxLen : ℕ) : List String :=
  let scored := (words.filter (make_word_re minLen maxLen)).map (fun w => (freq w, w))
  ((scored.insertionSort trimRel).take target).map Prod.snd

/-- The ordering the spec describes for trimming: descending frequency and,
on ties, ascending lexicographic text.  This definition follows the spec
text, for comparison with trim_to_target, which follows the source. -/
def trimRelSpec (a b : ℚ × String) : Prop :=
  b.1 < a.1 ∨ (a.1 = b.1 ∧ strLe a.2 b.2 = true)

instance : DecidableRel trimRelSpec := fun a b => by
  unfold trimRelSpec; infer_instance

/-- Trimming as the spec words it (descending frequency, then ascending
lexicographic text); compare with trim_to_target. -/
def trim_to_target_spec (freq : String → ℚ) (words : List String) (target : ℕ)
    (minLen maxLen : ℕ) : List String :=
  let scored := (words.filter (make_word_re minLen maxLen)).map (fun w => (freq w, w))
  ((scored.insertionSort trimRelSpec).take target).map Prod.snd

/-- Configuration slice of the CLI options read by the main loop
(letter_wordlist_generator.py:74-93): target-size, max-cycles, auto-loosen,
loosen-step and min-freq. -/
structure LoopCfg where
  maxCycles : ℕ
  targetSize : ℕ
  autoLoosen : Bool
  loosenStep : ℚ
  minFreq : ℚ
  deriving DecidableEq

/-- How the main loop of letter_wordlist_generator.py:259-287 exits. -/
inductive ExitReason
  | aborted
  | converged
  | stalled
  deriving DecidableEq

/-- Observable outcome of the main loop: final threshold, number of
alphabet passes executed, the threshold after every executed cycle, and the
exit reason. -/
structure LoopResult where
  freqFinal : ℚ
  passes : ℕ
  trace : List ℚ
  reason : ExitReason
  deriving DecidableEq

/-- The while-True loop of main (letter_wordlist_generator.py:259-287).
Each cycle runs one alphabet pass; the pass itself is external input here,
so the oracle maps the cycle number to the pair (added, total size) it
produced.  fuel bounds the modelled recursion depth; a none result means
the loop was still running after fuel iterations. -/
def runLoop (cfg : LoopCfg) (oracle : ℕ → ℕ × ℕ) :
    ℕ → ℕ → ℚ → ℕ → List ℚ → Option LoopResult
  | 0, _, _, _, _ => none
  | fuel + 1, cycle, freqCur, passCount, trace =>
    if cfg.maxCycles ≠ 0 ∧ cfg.maxCycles < cycle then
      some ⟨freqCur, passCount, trace, ExitReason.aborted⟩
    else
      let added := (oracle cycle).1
      let size := (oracle cycle).2
      if cfg.targetSize ≠ 0 ∧ cfg.targetSize ≤ size then
        some ⟨freqCur, passCount + 1, trace ++ [freqCur], ExitReason.converged⟩
      else if added = 0 then
        if cfg.autoLoosen = false ∨ freqCur - cfg.loosenStep < cfg.minFreq then
          some ⟨freqCur, passCount + 1, trace ++ [freqCur], ExitReason.stalled⟩
        else
          runLoop cfg oracle fuel (cycle + 1) (freqCur - cfg.loosenStep) (passCount + 1)
            (trace ++ [freqCur - cfg.loosenStep])
      else
        runLoop cfg oracle fuel (cycle + 1) freqCur (passCount + 1) (trace ++ [freqCur])

/-- Entry point of the loop: Python starts with cycle = 0 and increments at
the top of the body, so the first executed cycle is numbered 1. -/
def run_main_loop (cfg : LoopCfg) (oracle : ℕ → ℕ × ℕ) (fuel : ℕ) (freq0 : ℚ) :
    Option LoopResult :=
  runLoop cfg oracle fuel 1 freq0 0 []

/-- Filtering one model response into the accepted new batch
(letter_wordlist_generator.py:198-207): strip and lowercase each line, keep
it when nonempty, not yet collected and valid. -/
def newBatch (valid : String → Bool) (finalWords seen : List String)
    (lines : List String) : List String :=
  lines.filterMap (fun line =>
    let w := line.trim.toLower
    if w ≠ "" ∧ w ∉ finalWords ∧ w ∉ seen ∧ valid w = true then some w else none)

/-- Adding a batch of words to a set modelled as a duplicate-free list. -/
def addAll (s : List String) (batch : List String) : List String :=
  batch.foldl insertSet s

/-- The per-letter generation loop of alphabet_pass
(letter_wordlist_generator.py:192-217): while the per-letter seen set is
below the cap, query the model (the response stream is indexed by the query
counter k), filter the response, stop on an empty batch, otherwise add the
batch to both sets and continue. -/
def letterLoop (cap : ℕ) (valid : String → Bool) (responses : ℕ → List String) :
    ℕ → ℕ → List String → List String → Option (List String × List String)
  | 0, _, _, _ => none
  | fuel + 1, k, finalWords, seen =>
    if cap ≤ seen.length then some (finalWords, seen)
    else
      let batch := newBatch valid finalWords seen (responses k)
      if batch = [] then some (finalWords, seen)
      else letterLoop cap valid responses fuel (k + 1) (addAll finalWords batch)
        (addAll seen batch)

end LetterGen

namespace TrulyReadable

/-- Python s.endswith(suffix). -/
def endsWithStr (s suffix : String) : Bool :=
  suffix.toList.isSuffixOf s.toList

/-- Python s[:-1]. -/
def dropLastStr (s : String) : String :=
  String.mk s.toList.dropLast

/-- Python s[-1] as a one-character string (empty when s is empty; every
use in the source is guarded by a length check). -/
def lastStr (s : String) : String :=
  String.mk (match s.toList.getLast? with
    | some c => [c]
    | none => [])

/-- Python s[-(n+1)] in cs, false when the index is out of range. -/
def nthLastIn (s : String) (n : ℕ) (cs : List Char) : Bool :=
  match s.toList.reverse.get? n with
  | some c => decide (c ∈ cs)
  | none => false

def vowels : List Char := ['a', 'e', 'i', 'o', 'u']

/-- The consonants that double before -ing and -ed
(create_truly_readable_dictionary.py:117,127). -/
def dblConsonants : List Char :=
  ['b', 'c', 'd', 'g', 'k', 'l', 'm', 'n', 'p', 'r', 's', 't', 'v', 'z']

/-- The irregular-form table of generate_all_forms
(create_truly_readable_dictionary.py:21-100). -/
def irregular : List (String × List String) := [
  ("be", ["am", "is", "are", "was", "were", "been", "being"]),
  ("have", ["has", "had", "having"]),
  ("do", ["does", "did", "done", "doing"]),
  ("go", ["goes", "went", "gone", "going"]),
  ("get", ["gets", "got", "gotten", "getting"]),
  ("make", ["makes", "made", "making", "maker"]),
  ("take", ["takes", "took", "taken", "taking"]),
  ("come", ["comes", "came", "coming"]),
  ("see", ["sees", "saw", "seen", "seeing"]),
  ("know", ["knows", "knew", "known", "knowing"]),
  ("think", ["thinks", "thought", "thinking"]),
  ("give", ["gives", "gave", "given", "giving"]),
  ("find", ["finds", "found", "finding", "finder"]),
  ("tell", ["tells", "told", "telling", "teller"]),
  ("work", ["works", "worked", "working", "worker"]),
  ("call", ["calls", "called", "calling", "caller"]),
  ("try", ["tries", "tried", "trying"]),
  ("use", ["uses", "used", "using", "user", "users"]),
  ("need", ["needs", "needed", "needing"]),
  ("feel", ["feels", "felt", "feeling"]),
  ("leave", ["leaves", "left", "leaving"]),
  ("put", ["puts", "putting"]),
  ("mean", ["means", "meant", "meaning"]),
  ("keep", ["keeps", "kept", "keeping", "keeper"]),
  ("let", ["lets", "letting"]),
  ("begin", ["begins", "began", "begun", "beginning"]),
  ("seem", ["seems", "seemed", "seeming"]),
  ("help", ["helps", "helped", "helping", "helper"]),
  ("show", ["shows", "showed", "shown", "showing"]),
  ("hear", ["hears", "heard", "hearing"]),
  ("play", ["plays", "played", "playing", "player"]),
  ("run", ["runs", "ran", "running", "runner"]),
  ("move", ["moves", "moved", "moving", "mover"]),
  ("like", ["likes", "liked", "liking"]),
  ("live", ["lives", "lived", "living"]),
  ("bring", ["brings", "brought", "bringing"]),
  ("write", ["writes", "wrote", "written", "writing", "writer"]),
  ("sit", ["sits", "sat", "sitting", "sitter"]),
  ("stand", ["stands", "stood", "standing"]),
  ("lose", ["loses", "lost", "losing", "loser"]),
  ("pay", ["pays", "paid", "paying", "payer"]),
  ("meet", ["meets", "met", "meeting"]),
  ("set", ["sets", "setting", "setter"]),
  ("learn", ["learns", "learned", "learning", "learner"]),
  ("change", ["changes", "changed", "changing", "changer"]),
  ("lead", ["leads", "led", "leading", "leader"]),
  ("watch", ["watches", "watched", "watching", "watcher"]),
  ("follow", ["follows", "followed", "following", "follower"]),
  ("stop", ["stops", "stopped", "stopping", "stopper"]),
  ("create", ["creates", "created", "creating", "creator"]),
  ("speak", ["speaks", "spoke", "spoken", "speaking", "speaker"]),
  ("read", ["reads", "reading", "reader"]),
  ("spend", ["spends", "spent", "spending", "spender"]),
  ("grow", ["grows", "grew", "grown", "growing", "grower"]),
  ("open", ["opens", "opened", "opening", "opener"]),
  ("walk", ["walks", "walked", "walking", "walker"]),
  ("win", ["wins", "won", "winning", "winner"]),
  ("teach", ["teaches", "taught", "teaching", "teacher"]),
  ("offer", ["offers", "offered", "offering"]),
  ("remember", ["remembers", "remembered", "remembering"]),
  ("love", ["loves", "loved", "loving", "lover"]),
  ("consider", ["considers", "considered", "considering"]),
  ("appear", ["appears", "appeared", "appearing"]),
  ("buy", ["buys", "bought", "buying", "buyer"]),
  ("wait", ["waits", "waited", "waiting", "waiter"]),
  ("serve", ["serves", "served", "serving", "server"]),
  ("die", ["dies", "died", "dying"]),
  ("send", ["sends", "sent", "sending", "sender"]),
  ("build", ["builds", "built", "building", "builder"]),
  ("stay", ["stays", "stayed", "staying"]),
  ("fall", ["falls", "fell", "fallen", "falling"]),
  ("cut", ["cuts", "cutting", "cutter"]),
  ("reach", ["reaches", "reached", "reaching"]),
  ("kill", ["kills", "killed", "killing", "killer"]),
  ("eat", ["eats", "ate", "eaten", "eating", "eater"]),
  ("drink", ["drinks", "drank", "drunk", "drinking", "drinker"]),
  ("sleep", ["sleeps", "slept", "sleeping", "sleeper"]),
  ("wake", ["wakes", "woke", "woken", "waking"])]

/-- Python dict lookup, key by key. -/
def lookupIrregular : String → List (String × List String) → Option (List String)
  | _, [] => none
  | b, (k, v) :: rest => if b = k then some v else lookupIrregular b rest

/-- The final length filter of generate_all_forms
(create_truly_readable_dictionary.py:147): keep forms of 2 to 12
characters. -/
def lenOK (f : String) : Bool :=
  decide (2 ≤ f.length) && decide (f.length ≤ 12)

/-- generate_all_forms (create_truly_readable_dictionary.py:16-147): the
irregular lookup short-circuits every regular rule; otherwise the -s, -ing,
-ed, -er and -ly rules run in order, and the result passes the length
filter.  The Python set of forms is modelled as a list; only membership in
it matters. -/
def generate_all_forms (base : String) : List String :=
  match lookupIrregular base irregular with
  | some fs => (base :: fs).filter lenOK
  | none =>
    let sForm :=
      if endsWithStr base "y" && decide (2 < base.length) && !(nthLastIn base 1 vowels) then
        dropLastStr base ++ "ies"
      else if endsWithStr base "s" || endsWithStr base "ss" || endsWithStr base "sh" ||
          endsWithStr base "ch" || endsWithStr base "x" || endsWithStr base "z" then
        base ++ "es"
      else base ++ "s"
    let ingForm :=
      if endsWithStr base "e" && !endsWithStr base "ee" then
        dropLastStr base ++ "ing"
      else if decide (3 ≤ base.length) && nthLastIn base 0 dblConsonants &&
          nthLastIn base 1 vowels && !(nthLastIn base 2 vowels) then
        base ++ lastStr base ++ "ing"
      else base ++ "ing"
    let edForm :=
      if endsWithStr base "e" then base ++ "d"
      else if endsWithStr base "y" && decide (2 < base.length) && !(nthLastIn base 1 vowels) then
        dropLastStr base ++ "ied"
      else if decide (3 ≤ base.length) && nthLastIn base 0 dblConsonants &&
          nthLastIn base 1 vowels && !(nthLastIn base 2 vowels) then
        base ++ lastStr base ++ "ed"
      else base ++ "ed"
    let erForm :=
      if endsWithStr base "e" then base ++ "r"
      else if endsWithStr base "y" && decide (2 < base.length) && !(nthLastIn base 1 vowels) then
        dropLastStr base ++ "ier"
      else base ++ "er"
    let lyForm :=
      if endsWithStr base "y" then dropLastStr base ++ "ily"
      else base ++ "ly"
    (base :: [sForm, ingForm, edForm, erForm, lyForm]).filter lenOK

end TrulyReadable

namespace Improver

/-- BANNED (wordlist_openai_improver.py:76-80). -/
def BANNED : List String :=
  ["cunt", "dammit", "damn", "damned", "dick", "dicks",
   "shit", "shits", "fucker", "fucking", "fuck", "fucks",
   "asshole", "twat", "bastard", "bollocks", "bugger"]

/-- RE_NON_ALPHA.search(word): some character outside A-Za-z.  Lean
Char.isAlpha is exactly the ASCII letters. -/
def hasNonAlpha (w : String) : Bool :=
  w.toList.any (fun c => !c.isAlpha)

/-- Python str.isupper over the ASCII fragment: at least one cased
character and no cased character in lowercase. -/
def pyIsUpper (w : String) : Bool :=
  (w.toList.any Char.isAlpha) && w.toList.all (fun c => !c.isAlpha || c.isUpper)

/-- Python str.isalpha over the ASCII fragment: nonempty and letters
only. -/
def pyIsAlpha (w : String) : Bool :=
  !w.toList.isEmpty && w.toList.all Char.isAlpha

/-- obvious_bad (wordlist_openai_improver.py:83-89), with the
zipf_frequency corpus lookup as the parameter freq. -/
def obvious_bad (freq : String → ℚ) (thr : ℚ) (w : String) : Bool :=
  decide (w ∈ BANNED) || hasNonAlpha w || pyIsUpper w || decide (freq w < thr)

/-- PLACEHOLDER_RE (wordlist_openai_improver.py:73): full match of
_missing_[a-z]+_ : the 9-character prefix, at least one lowercase letter,
and a final underscore. -/
def isPlaceholder (w : String) : Bool :=
  decide (w.toList.take 9 = "_missing_".toList) && decide (11 ≤ w.toList.length) &&
    (w.toList.drop 9).dropLast.all (fun c => decide ('a' ≤ c) && decide (c ≤ 'z')) &&
    decide (w.toList.getLast? = some '_')

/-- The placeholder string built for a removed word
(wordlist_openai_improver.py:158,227). -/
def phOf (bw : String) : String := "_missing_" ++ bw ++ "_"

/-- The mutable state of refine_wordlist: the working list words, the set
wordset = set(words), the bloom filter (modelled as an exact set; a Bloom
filter admits false positives, which could only turn a fresh replacement
into a placeholder, a path the model reaches anyway), and the placeholders
list. -/
structure St where
  words : List String
  wordset : List String
  bloom : List String
  placeholders : List String
  deriving DecidableEq

/-- State after loading: words as read, wordset = set(words), every word
added to the bloom filter (wordlist_openai_improver.py:144-151). -/
def initSt (words0 : List String) : St :=
  ⟨words0, words0.dedup, words0.dedup, []⟩

/-- One step of the banned-word purge (wordlist_openai_improver.py:155-162):
remove the banned word from the list and the set, append its placeholder to
both, record it. -/
def purgeStep (st : St) (bw : String) : St :=
  ⟨(st.words.erase bw) ++ [phOf bw],
   insertSet (st.wordset.erase bw) (phOf bw),
   insertSet st.bloom (phOf bw),
   st.placeholders ++ [phOf bw]⟩

/-- The banned-word purge (wordlist_openai_improver.py:154-162): iterate
over wordset intersected with BANNED (one fixed enumeration of that set,
here in BANNED order; no claim depends on the order). -/
def purge (st : St) : St :=
  (BANNED.filter (fun b => decide (b ∈ st.wordset))).foldl purgeStep st

/-- One parsed record of the classifier response: the assessed word, the
keep verdict (absent defaults to keep), suggested replacements. -/
structure CRec where
  word : String
  keep : Bool
  replacements : List String
  deriving DecidableEq

/-- The replacement scan (wordlist_openai_improver.py:217-224): first
lowercased suggestion that is alphabetic, not in the bloom filter and not
obviously bad. -/
def findAlt (freq : String → ℚ) (thr : ℚ) (bloom : List String)
    (alts : List String) : Option String :=
  (alts.map (fun a => a.toLower)).find? (fun alt =>
    pyIsAlpha alt && !decide (alt ∈ bloom) && !obvious_bad freq thr alt)

/-- Processing one response record (wordlist_openai_improver.py:202-234):
unknown words and keep verdicts change nothing; a remove verdict removes
the word and appends in the same step either a validated replacement or the
word's placeholder. -/
def processRec (freq : String → ℚ) (thr : ℚ) (st : St) (r : CRec) : St :=
  let word := r.word.toLower
  if word ∈ st.wordset then
    if r.keep then st
    else
      match findAlt freq thr st.bloom r.replacements with
      | some alt =>
        ⟨(st.words.erase word) ++ [alt], insertSet (st.wordset.erase word) alt,
         insertSet st.bloom alt, st.placeholders⟩
      | none =>
        ⟨(st.words.erase word) ++ [phOf word], insertSet (st.wordset.erase word) (phOf word),
         insertSet st.bloom (phOf word), st.placeholders ++ [phOf word]⟩
  else st

/-- Shape of one batch's transport outcome: the response either fails to
parse against the schema (malformed) or yields records. -/
inductive Resp
  | malformed
  | ok (recs : List CRec)
  deriving DecidableEq

/-- One batch (wordlist_openai_improver.py:173-234): cl.1 is the number of
attempts that raised an API error before the first success.  If every one
of the max-retries attempts failed, the for-else exits the pipeline (none).
Otherwise a malformed response is skipped - the state is returned
unchanged, keeping all the batch's words (lines 195-200) - and a parsed
response has its records folded over the state. -/
def runBatch (maxRetries : ℕ) (freq : String → ℚ) (thr : ℚ) (cl : ℕ × Resp)
    (st : St) : Option St :=
  if maxRetries ≤ cl.1 then none
  else
    match cl.2 with
    | Resp.malformed => some st
    | Resp.ok recs => some (recs.foldl (processRec freq thr) st)

/-- The batch loop: the classifier is indexed by batch number; batch
contents drive only the iteration count, since the source processes
whatever words the response names (checked only against wordset). -/
def runBatches (maxRetries : ℕ) (freq : String → ℚ) (thr : ℚ)
    (classifier : ℕ → ℕ × Resp) : List (List String) → ℕ → St → Option St
  | [], _, st => some st
  | _ :: rest, i, st =>
    match runBatch maxRetries freq thr (classifier i) st with
    | none => none
    | some st2 => runBatches maxRetries freq thr classifier rest (i + 1) st2

/-- chunked (wordlist_openai_improver.py:92-94), with an explicit fuel
equal to the list length (n = 0 raises in Python; modelled as no
batches). -/
def chunkedAux (n : ℕ) : ℕ → List String → List (List String)
  | 0, _ => []
  | _, [] => []
  | fuel + 1, l => l.take n :: chunkedAux n fuel (l.drop n)

def chunked (n : ℕ) (l : List String) : List (List String) :=
  if n = 0 then [] else chunkedAux n l.length l

/-- Consuming the shared pool generator until a suitable filler candidate
appears (wordlist_openai_improver.py:248-253): returns the candidate found
and the rest of the pool (everything scanned is consumed). -/
def findConsume (freq : String → ℚ) (thr : ℚ) (bloom : List String) :
    List String → Option String × List String
  | [] => (none, [])
  | c :: rest =>
    if !decide (c ∈ bloom) && !obvious_bad freq thr c then (some c, rest)
    else findConsume freq thr bloom rest

/-- The placeholder-filling scan (wordlist_openai_improver.py:245-253):
walk the working list; at every line matching the placeholder pattern take
the next suitable pool candidate in place (adding it to the bloom filter),
or leave the placeholder untouched when the pool is exhausted.  Returns the
new list and the number of replacements made. -/
def fillLoop (freq : String → ℚ) (thr : ℚ) :
    List String → List String → List String → List String × ℕ
  | _, _, [] => ([], 0)
  | bloom, pool, w :: rest =>
    if isPlaceholder w then
      match findConsume freq thr bloom pool with
      | (some c, pool2) =>
        let r := fillLoop freq thr (insertSet bloom c) pool2 rest
        (c :: r.1, r.2 + 1)
      | (none, pool2) =>
        let r := fillLoop freq thr bloom pool2 rest
        (w :: r.1, r.2)
    else
      let r := fillLoop freq thr bloom pool rest
      (w :: r.1, r.2)

/-- The fill pass (wordlist_openai_improver.py:241-254): runs only when
placeholders were recorded; the pool is top_n_list pre-filtered to
alphabetic entries. -/
def fill (freq : String → ℚ) (thr : ℚ) (pool : List String) (st : St) : List String :=
  if st.placeholders.isEmpty then st.words
  else (fillLoop freq thr st.bloom (pool.filter pyIsAlpha) st.words).1

/-- The pipeline between the entry size check and the final size check
(wordlist_openai_improver.py:153-254): purge, candidate selection, batch
loop, placeholder fill.  none means the batch loop exited the process. -/
def refine_core (freq : String → ℚ) (thr : ℚ) (batchSize maxRetries : ℕ)
    (classifier : ℕ → ℕ × Resp) (pool : List String) (words0 : List String) :
    Option (List String) :=
  let st1 := purge (initSt words0)
  let candidates := st1.words.filter (fun w => !obvious_bad freq thr w && !isPlaceholder w)
  Option.map (fill freq thr pool)
    (runBatches maxRetries freq thr classifier (chunked batchSize candidates) 0 st1)

/-- The invariant carried through the refinement pipeline: the modelled
wordset is duplicate-free and every set member occurs in the working list
(so every list.remove in the source finds its element and removes exactly
one occurrence). -/
def StInv (st : St) : Prop :=
  st.wordset.Nodup ∧ ∀ w ∈ st.wordset, w ∈ st.words

/-- Python string comparison as a relation, for the final sorted write. -/
def strLeRel (a b : String) : Prop := strLe a b = true

instance : DecidableRel strLeRel := fun a b =>
  inferInstanceAs (Decidable (strLe a b = true))

/-- refine_wordlist (wordlist_openai_improver.py:139-260): words0 is the
stripped, lowercased, nonempty input lines; a some result is the sorted
content written to the output file, none is an exit without writing.  The
input must hold exactly 65536 lines (line 145), and the final length check
(line 256) guards the write. -/
def refine_wordlist (freq : String → ℚ) (thr : ℚ) (batchSize maxRetries : ℕ)
    (classifier : ℕ → ℕ × Resp) (pool : List String) (words0 : List String) :
    Option (List String) :=
  if words0.length = 65536 then
    Option.bind (refine_core freq thr batchSize maxRetries classifier pool words0)
      (fun ws => if ws.length = 65536 then some (ws.insertionSort strLeRel) else none)
  else none

end Improver

namespace FixSize

/-- The per-line filter of the frequency backfill
(scripts/fix_dictionary_size.py:42-46): nonempty, not already in the
dictionary, at least two characters, isalpha and all code points below 128
(the last two together are exactly ASCII letters, Lean Char.isAlpha). -/
def okWord (currentSet : List String) (w : String) : Bool :=
  !w.toList.isEmpty && !decide (w ∈ currentSet) && decide (2 ≤ w.length) &&
    w.toList.all Char.isAlpha

/-- fix_dictionary_size (scripts/fix_dictionary_size.py:16-73): current is
the stripped nonempty lines of the dictionary file, freqList those of the
frequency file.  A some result is the content written back; none is an
early return without writing (already large enough, or duplicates
detected).  The collection loop stops as soon as enough replacements are
found, so it takes the first needed words passing the filter. -/
def fix_dictionary_size (current freqList : List String) : Option (List String) :=
  let needed : ℤ := 65536 - current.length
  if needed ≤ 0 then none
  else
    let reps := (freqList.filter (okWord current)).take needed.toNat
    let final := current ++ reps
    if final.Nodup then some final else none

end FixSize

theorem listLe_total : ∀ as bs : List Char, listLe as bs = true ∨ listLe bs as = true
  | [], _ => Or.inl rfl
  | _ :: _, [] => Or.inr rfl
  | a :: as, b :: bs => by
    by_cases h1 : a < b
    · left; simp [listLe, h1]
    by_cases h2 : b < a
    · right; simp [listLe, h2, h1]
    · have := listLe_total as bs
      rcases this with h | h
      · left; simp [listLe, h1, h2, h]
      · right; simp [listLe, h1, h2, h]

theorem listLe_trans : ∀ as bs cs : List Char, listLe as bs = true → listLe bs cs = true →
    listLe as cs = true
  | [], _, _, _, _ => rfl
  | a :: as, [], _, h, _ => by simp [listLe] at h
  | _ :: _, _ :: _, [], _, h => by simp [listLe] at h
  | a :: as, b :: bs, c :: cs, h1, h2 => by
    simp only [listLe] at h1 h2 ⊢
    by_cases hab : a < b <;> by_cases hbc : b < c
    · simp [lt_trans hab hbc]
    · have hcb : ¬ c < b := by
        intro hcb
        simp [hbc, hcb] at h2
      have hbc2 : b = c := le_antisymm (not_lt.mp hcb) (not_lt.mp hbc)
      subst hbc2
      simp [hab]
    · have hba : ¬ b < a := by
        intro hba
        simp [hab, hba] at h1
      have hab2 : a = b := le_antisymm (not_lt.mp hba) (not_lt.mp hab)
      subst hab2
      simp [hbc]
    · have hba : ¬ b < a := by
        intro hba
        simp [hab, hba] at h1
      have hcb : ¬ c < b := by
        intro hcb
        simp [hbc, hcb] at h2
      have hac : ¬ a < c := by
        intro hac
        exact absurd (le_antisymm (not_lt.mp hba) (not_lt.mp hab) ▸ hac) hbc
      have hca : ¬ c < a := by
        intro hca
        exact absurd (le_antisymm (not_lt.mp hcb) (not_lt.mp hbc) ▸ hca) hba
      simp [hab, hba, hbc, hcb, hac, hca] at h1 h2 ⊢
      exact listLe_trans as bs cs h1 h2

theorem listLe_antisymm : ∀ as bs : List Char, listLe as bs = true → listLe bs as = true →
    as = bs
  | [], [], _, _ => rfl
  | [], _ :: _, _, h => by simp [listLe] at h
  | _ :: _, [], h, _ => by simp [listLe] at h
  | a :: as, b :: bs, h1, h2 => by
    simp only [listLe] at h1 h2
    by_cases hab : a < b
    · simp [hab, lt_asymm hab] at h2
    by_cases hba : b < a
    · simp [hab, hba] at h1
    have : a = b := le_antisymm (not_lt.mp hba) (not_lt.mp hab)
    subst this
    simp [hab, hba] at h1 h2
    rw [listLe_antisymm as bs h1 h2]

theorem strLe_total (a b : String) : strLe a b = true ∨ strLe b a = true :=
  listLe_total a.toList b.toList

theorem strLe_trans {a b c : String} (h1 : strLe a b = true) (h2 : strLe b c = true) :
    strLe a c = true :=
  listLe_trans a.toList b.toList c.toList h1 h2

theorem strLe_antisymm {a b : String} (h1 : strLe a b = true) (h2 : strLe b a = true) :
    a = b :=
  String.toList_inj.mp (listLe_antisymm a.toList b.toList h1 h2)

theorem dedup_replicate_pos {α : Type} [DecidableEq α] (a : α) :
    ∀ n : ℕ, 1 ≤ n → (List.replicate n a).dedup = [a]
  | 0, h => absurd h (by omega)
  | 1, _ => by simp
  | n + 2, _ => by
    have hmem : a ∈ List.replicate (n + 1) a := List.mem_replicate.mpr ⟨by omega, rfl⟩
    rw [List.replicate_succ, List.dedup_cons_of_mem hmem]
    exact dedup_replicate_pos a (n + 1) (by omega)

theorem filter_replicate_false {α : Type} (p : α → Bool) (a : α) (hp : p a = false) :
    ∀ n : ℕ, (List.replicate n a).filter p = []
  | 0 => rfl
  | n + 1 => by
    simp [List.replicate_succ, List.filter_cons, hp, filter_replicate_false p a hp n]

namespace LetterGen

instance : IsTrans (ℚ × String) trimRel := by
  constructor
  intro a b c hab hbc
  rcases hab with h1 | ⟨h1, h2⟩ <;> rcases hbc with h3 | ⟨h3, h4⟩
  · exact Or.inl (lt_trans h3 h1)
  · exact Or.inl (h3 ▸ h1)
  · exact Or.inl (h1 ▸ h3)
  · exact Or.inr ⟨h1.trans h3, strLe_trans h4 h2⟩

instance : IsTotal (ℚ × String) trimRel := by
  constructor
  intro a b
  rcases lt_trichotomy a.1 b.1 with h | h | h
  · exact Or.inr (Or.inl h)
  · rcases strLe_total a.2 b.2 with h2 | h2
    · exact Or.inr (Or.inr ⟨h.symm, h2⟩)
    · exact Or.inl (Or.inr ⟨h, h2⟩)
  · exact Or.inl (Or.inl h)

instance : IsAntisymm (ℚ × String) trimRel := by
  constructor
  intro a b hab hba
  rcases hab with h1 | ⟨h1, h2⟩ <;> rcases hba with h3 | ⟨h3, h4⟩
  · exact absurd h1 (not_lt_of_lt h3)
  · exact absurd h1 (h3 ▸ lt_irrefl _)
  · exact absurd h3 (h1 ▸ lt_irrefl _)
  · exact Prod.ext h1 (strLe_antisymm h4 h2)

theorem length_le_insertSet (s : List String) (x : String) :
    s.length ≤ (insertSet s x).length := by
  unfold insertSet
  split
  · exact le_refl _
  · simp

theorem length_insertSet_of_not_mem {s : List String} {x : String} (h : x ∉ s) :
    (insertSet s x).length = s.length + 1 := by
  unfold insertSet
  rw [if_neg h]
  simp

theorem length_le_addAll : ∀ (batch s : List String), s.length ≤ (addAll s batch).length
  | [], _ => le_refl _
  | b :: rest, s => by
    unfold addAll
    simp only [List.foldl_cons]
    exact le_trans (length_le_insertSet s b) (length_le_addAll rest (insertSet s b))

theorem length_lt_addAll : ∀ (batch s : List String), (∃ w ∈ batch, w ∉ s) →
    s.length < (addAll s batch).length
  | [], _, h => by simp at h
  | b :: rest, s, h => by
    unfold addAll
    simp only [List.foldl_cons]
    by_cases hb : b ∈ s
    · rcases h with ⟨w, hw, hws⟩
      rcases List.mem_cons.mp hw with hw2 | hw2
      · exact absurd (hw2 ▸ hb) hws
      · have hrec := length_lt_addAll rest s ⟨w, hw2, hws⟩
        unfold addAll at hrec
        rw [insertSet, if_pos hb]
        exact hrec
    · calc s.length < (insertSet s b).length := by
            rw [length_insertSet_of_not_mem hb]; omega
        _ ≤ (addAll (insertSet s b) rest).length := length_le_addAll rest _
        _ = _ := rfl

theorem newBatch_not_seen {valid : String → Bool} {finalWords seen lines : List String}
    {w : String} (h : w ∈ newBatch valid finalWords seen lines) : w ∉ seen := by
  unfold newBatch at h
  rw [List.mem_filterMap] at h
  rcases h with ⟨line, _, hline⟩
  by_cases hc : line.trim.toLower ≠ "" ∧ line.trim.toLower ∉ finalWords ∧
      line.trim.toLower ∉ seen ∧ valid line.trim.toLower = true
  · rw [if_pos hc] at hline
    cases hline
    exact hc.2.2.1
  · rw [if_neg hc] at hline
    cases hline

theorem letterLoop_terminates (cap : ℕ) (valid : String → Bool)
    (responses : ℕ → List String) :
    ∀ (fuel k : ℕ) (finalWords seen : List String),
      1 ≤ fuel → cap + 1 ≤ fuel + seen.length →
      ∃ out, letterLoop cap valid responses fuel k finalWords seen = some out := by
  intro fuel
  induction fuel with
  | zero => intro k fw seen h1 _; omega
  | succ f ih =>
    intro k fw seen _ hcap
    unfold letterLoop
    by_cases hdone : cap ≤ seen.length
    · rw [if_pos hdone]
      exact ⟨(fw, seen), rfl⟩
    · rw [if_neg hdone]
      by_cases hempty : newBatch valid fw seen (responses k) = []
      · rw [if_pos hempty]
        exact ⟨(fw, seen), rfl⟩
      · rw [if_neg hempty]
        have hgrow : seen.length < (addAll seen (newBatch valid fw seen (responses k))).length := by
          apply length_lt_addAll
          rcases List.exists_mem_of_ne_nil _ hempty with ⟨w, hw⟩
          exact ⟨w, hw, newBatch_not_seen hw⟩
        exact ih (k + 1) (addAll fw (newBatch valid fw seen (responses k)))
          (addAll seen (newBatch valid fw seen (responses k))) (by omega) (by omega)

theorem chain_concat_of_last {R : ℚ → ℚ → Prop} {l : List ℚ} {x y : ℚ}
    (hc : List.Chain' R l) (hlast : l.getLast? = some x) (hr : R x y) :
    List.Chain' R (l ++ [y]) := by
  rw [List.chain'_append]
  refine ⟨hc, List.chain'_singleton y, ?_⟩
  intro a ha b hb
  simp only [List.head?] at hb
  rw [hlast] at ha
  simp only [Option.mem_def, Option.some.injEq] at ha hb
  subst ha
  subst hb
  exact hr

theorem runLoop_trace_aux (cfg : LoopCfg) (oracle : ℕ → ℕ × ℕ) (init : ℚ) :
    ∀ (fuel cycle passCount : ℕ) (freqCur : ℚ) (trace : List ℚ) (res : LoopResult),
      runLoop cfg oracle fuel cycle freqCur passCount trace = some res →
      cfg.minFreq ≤ freqCur →
      (∀ f ∈ trace, cfg.minFreq ≤ f) →
      List.Chain' (fun a b => b = a ∨ b = a - cfg.loosenStep) (init :: trace) →
      (init :: trace).getLast? = some freqCur →
      (∀ f ∈ res.trace, cfg.minFreq ≤ f) ∧
      List.Chain' (fun a b => b = a ∨ b = a - cfg.loosenStep) (init :: res.trace) := by
  intro fuel
  induction fuel with
  | zero =>
    intro _ _ _ _ _ h
    exact absurd h (by simp [runLoop])
  | succ f ih =>
    intro cycle passCount freqCur trace res hrun hmin htrace hchain hlast
    unfold runLoop at hrun
    simp only [] at hrun
    by_cases hguard : cfg.maxCycles ≠ 0 ∧ cfg.maxCycles < cycle
    · rw [if_pos hguard] at hrun
      cases hrun
      exact ⟨htrace, hchain⟩
    · rw [if_neg hguard] at hrun
      have hextend : ∀ x : ℚ, (fun a b => b = a ∨ b = a - cfg.loosenStep) freqCur x →
          List.Chain' (fun a b => b = a ∨ b = a - cfg.loosenStep) (init :: (trace ++ [x])) := by
        intro x hx
        rw [← List.cons_append]
        exact chain_concat_of_last hchain hlast hx
      have hmemext : ∀ x : ℚ, cfg.minFreq ≤ x → ∀ f ∈ trace ++ [x], cfg.minFreq ≤ f := by
        intro x hx f hf
        rcases List.mem_append.mp hf with hf | hf
        · exact htrace f hf
        · rw [List.mem_singleton.mp hf]
          exact hx
      by_cases htarget : cfg.targetSize ≠ 0 ∧ cfg.targetSize ≤ (oracle cycle).2
      · rw [if_pos htarget] at hrun
        cases hrun
        exact ⟨hmemext freqCur hmin, hextend freqCur (Or.inl rfl)⟩
      · rw [if_neg htarget] at hrun
        by_cases hadded : (oracle cycle).1 = 0
        · rw [if_pos hadded] at hrun
          by_cases hstall : cfg.autoLoosen = false ∨ freqCur - cfg.loosenStep < cfg.minFreq
          · rw [if_pos hstall] at hrun
            cases hrun
            exact ⟨hmemext freqCur hmin, hextend freqCur (Or.inl rfl)⟩
          · rw [if_neg hstall] at hrun
            have hstep : cfg.minFreq ≤ freqCur - cfg.loosenStep := by
              rcases not_or.mp hstall with ⟨_, h2⟩
              exact not_lt.mp h2
            exact ih (cycle + 1) (passCount + 1) (freqCur - cfg.loosenStep)
              (trace ++ [freqCur - cfg.loosenStep]) res hrun hstep
              (hmemext _ hstep) (hextend _ (Or.inr rfl))
              (by rw [← List.cons_append, List.getLast?_concat])
        · rw [if_neg hadded] at hrun
          exact ih (cycle + 1) (passCount + 1) freqCur (trace ++ [freqCur]) res hrun hmin
            (hmemext _ hmin) (hextend _ (Or.inl rfl))
            (by rw [← List.cons_append, List.getLast?_concat])

theorem runLoop_terminates_aux (cfg : LoopCfg) (oracle : ℕ → ℕ × ℕ)
    (hmax : 1 ≤ cfg.maxCycles) :
    ∀ (fuel cycle passCount : ℕ) (freqCur : ℚ) (trace : List ℚ),
      1 ≤ cycle → cycle ≤ cfg.maxCycles + 1 → cfg.maxCycles + 2 ≤ cycle + fuel →
      ∃ res, runLoop cfg oracle fuel cycle freqCur passCount trace = some res ∧
        res.passes ≤ passCount + (cfg.maxCycles + 1 - cycle) := by
  intro fuel
  induction fuel with
  | zero =>
    intro cycle _ _ _ _ h2 h3
    omega
  | succ f ih =>
    intro cycle passCount freqCur trace h1 h2 h3
    unfold runLoop
    simp only []
    by_cases hguard : cfg.maxCycles ≠ 0 ∧ cfg.maxCycles < cycle
    · rw [if_pos hguard]
      exact ⟨_, rfl, by simp only []; omega⟩
    · rw [if_neg hguard]
      have hcyc : cycle ≤ cfg.maxCycles := by
        rcases not_and_or.mp hguard with h | h
        · omega
        · omega
      by_cases htarget : cfg.targetSize ≠ 0 ∧ cfg.targetSize ≤ (oracle cycle).2
      · rw [if_pos htarget]
        exact ⟨_, rfl, by simp; omega⟩
      · rw [if_neg htarget]
        by_cases hadded : (oracle cycle).1 = 0
        · rw [if_pos hadded]
          by_cases hstall : cfg.autoLoosen = false ∨ freqCur - cfg.loosenStep < cfg.minFreq
          · rw [if_pos hstall]
            exact ⟨_, rfl, by simp; omega⟩
          · rw [if_neg hstall]
            rcases ih (cycle + 1) (passCount + 1) (freqCur - cfg.loosenStep)
              (trace ++ [freqCur - cfg.loosenStep]) (by omega) (by omega) (by omega)
              with ⟨res, hres, hp⟩
            exact ⟨res, hres, by omega⟩
        · rw [if_neg hadded]
          rcases ih (cycle + 1) (passCount + 1) freqCur (trace ++ [freqCur])
            (by omega) (by omega) (by omega) with ⟨res, hres, hp⟩
          exact ⟨res, hres, by omega⟩

end LetterGen

namespace Improver

theorem mem_insertSet {s : List String} {x y : String} :
    y ∈ insertSet s x ↔ y ∈ s ∨ y = x := by
  unfold insertSet
  split
  · rename_i h
    constructor
    · exact Or.inl
    · rintro (hy | rfl)
      · exact hy
      · exact h
  · simp [List.mem_append]

theorem nodup_insertSet {s : List String} (hs : s.Nodup) (x : String) :
    (insertSet s x).Nodup := by
  unfold insertSet
  split
  · exact hs
  · rename_i hx
    rw [List.nodup_append]
    exact ⟨hs, List.nodup_singleton x, fun a ha hax => hx ((List.mem_singleton.mp hax) ▸ ha)⟩

theorem StInv_init (words0 : List String) : StInv (initSt words0) :=
  ⟨List.nodup_dedup words0, fun _ hw => List.mem_dedup.mp hw⟩

theorem erase_append_inv (y : String) {words wordset : List String} {word : String}
    (hnd : wordset.Nodup) (hsub : ∀ w ∈ wordset, w ∈ words) (hword : word ∈ wordset) :
    (insertSet (wordset.erase word) y).Nodup ∧
    (∀ w ∈ insertSet (wordset.erase word) y, w ∈ (words.erase word) ++ [y]) ∧
    ((words.erase word) ++ [y]).length = words.length := by
  refine ⟨nodup_insertSet (hnd.erase word) y, ?_, ?_⟩
  · intro w hw
    rcases mem_insertSet.mp hw with hw | rfl
    · rcases (hnd.mem_erase_iff).mp hw with ⟨hne, hws⟩
      exact List.mem_append_left _ ((List.mem_erase_of_ne hne).mpr (hsub w hws))
    · exact List.mem_append_right _ (List.mem_singleton_self _)
  · have h1 := List.length_erase_add_one (hsub word hword)
    simp only [List.length_append, List.length_singleton]
    omega

theorem purgeStep_inv {st : St} {bw : String} (hinv : StInv st) (hbw : bw ∈ st.wordset) :
    StInv (purgeStep st bw) ∧ (purgeStep st bw).words.length = st.words.length := by
  obtain ⟨hnd, hsub⟩ := hinv
  obtain ⟨h1, h2, h3⟩ := erase_append_inv (phOf bw) hnd hsub hbw
  exact ⟨⟨h1, h2⟩, h3⟩

theorem purge_fold_inv : ∀ (bws : List String) (st : St), StInv st → bws.Nodup →
    (∀ b ∈ bws, b ∈ st.wordset) →
    StInv (bws.foldl purgeStep st) ∧ (bws.foldl purgeStep st).words.length = st.words.length
  | [], _, hinv, _, _ => ⟨hinv, rfl⟩
  | b :: rest, st, hinv, hnd, hmem => by
    simp only [List.foldl_cons]
    have hstep := purgeStep_inv hinv (hmem b (List.mem_cons_self b rest))
    have hrest : ∀ x ∈ rest, x ∈ (purgeStep st b).wordset := by
      intro x hx
      have hxw : x ∈ st.wordset := hmem x (List.mem_cons_of_mem b hx)
      have hxb : x ≠ b := fun hxe => (List.nodup_cons.mp hnd).1 (hxe ▸ hx)
      exact mem_insertSet.mpr (Or.inl ((List.mem_erase_of_ne hxb).mpr hxw))
    have hres := purge_fold_inv rest (purgeStep st b) hstep.1 hnd.of_cons hrest
    exact ⟨hres.1, hres.2.trans hstep.2⟩

theorem purge_inv (st : St) (hinv : StInv st) :
    StInv (purge st) ∧ (purge st).words.length = st.words.length := by
  apply purge_fold_inv _ _ hinv
  · exact List.Nodup.filter _ (by decide)
  · intro b hb
    exact of_decide_eq_true (List.mem_filter.mp hb).2

theorem processRec_inv (freq : String → ℚ) (thr : ℚ) (st : St) (r : CRec)
    (hinv : StInv st) :
    StInv (processRec freq thr st r) ∧
    (processRec freq thr st r).words.length = st.words.length := by
  obtain ⟨hnd, hsub⟩ := hinv
  unfold processRec
  simp only []
  by_cases hmem : r.word.toLower ∈ st.wordset
  · rw [if_pos hmem]
    by_cases hkeep : r.keep = true
    · rw [if_pos hkeep]
      exact ⟨⟨hnd, hsub⟩, rfl⟩
    · rw [if_neg hkeep]
      cases hfind : findAlt freq thr st.bloom r.replacements with
      | some alt =>
        obtain ⟨h1, h2, h3⟩ := erase_append_inv alt hnd hsub hmem
        exact ⟨⟨h1, h2⟩, h3⟩
      | none =>
        obtain ⟨h1, h2, h3⟩ := erase_append_inv (phOf r.word.toLower) hnd hsub hmem
        exact ⟨⟨h1, h2⟩, h3⟩
  · rw [if_neg hmem]
    exact ⟨⟨hnd, hsub⟩, rfl⟩

theorem foldRecs_inv (freq : String → ℚ) (thr : ℚ) :
    ∀ (recs : List CRec) (st : St), StInv st →
      StInv (recs.foldl (processRec freq thr) st) ∧
      (recs.foldl (processRec freq thr) st).words.length = st.words.length
  | [], _, hinv => ⟨hinv, rfl⟩
  | r :: rest, st, hinv => by
    simp only [List.foldl_cons]
    have h1 := processRec_inv freq thr st r hinv
    have h2 := foldRecs_inv freq thr rest (processRec freq thr st r) h1.1
    exact ⟨h2.1, h2.2.trans h1.2⟩

theorem runBatch_inv (maxRetries : ℕ) (freq : String → ℚ) (thr : ℚ) (cl : ℕ × Resp)
    (st st2 : St) (hinv : StInv st) (h : runBatch maxRetries freq thr cl st = some st2) :
    StInv st2 ∧ st2.words.length = st.words.length := by
  unfold runBatch at h
  split at h
  · exact absurd h (by simp)
  · cases hcl : cl.2 with
    | malformed =>
      rw [hcl] at h
      cases h
      exact ⟨hinv, rfl⟩
    | ok recs =>
      rw [hcl] at h
      cases h
      exact foldRecs_inv freq thr recs st hinv

theorem runBatches_inv (maxRetries : ℕ) (freq : String → ℚ) (thr : ℚ)
    (classifier : ℕ → ℕ × Resp) :
    ∀ (batches : List (List String)) (i : ℕ) (st st2 : St), StInv st →
      runBatches maxRetries freq thr classifier batches i st = some st2 →
      StInv st2 ∧ st2.words.length = st.words.length
  | [], _, st, st2, hinv, h => by
    cases h
    exact ⟨hinv, rfl⟩
  | _ :: rest, i, st, st2, hinv, h => by
    unfold runBatches at h
    cases hb : runBatch maxRetries freq thr (classifier i) st with
    | none =>
      rw [hb] at h
      exact absurd h (by simp)
    | some stm =>
      rw [hb] at h
      have h1 := runBatch_inv maxRetries freq thr (classifier i) st stm hinv hb
      have h2 := runBatches_inv maxRetries freq thr classifier rest (i + 1) stm st2 h1.1 h
      exact ⟨h2.1, h2.2.trans h1.2⟩

theorem fillLoop_length (freq : String → ℚ) (thr : ℚ) :
    ∀ (ws bloom pool : List String),
      (fillLoop freq thr bloom pool ws).1.length = ws.length
  | [], _, _ => rfl
  | w :: rest, bloom, pool => by
    unfold fillLoop
    split
    · rcases hfc : findConsume freq thr bloom pool with ⟨copt, pool2⟩
      cases copt with
      | some c =>
        simp only []
        rw [List.length_cons, List.length_cons, fillLoop_length freq thr rest _ pool2]
      | none =>
        simp only []
        rw [List.length_cons, List.length_cons, fillLoop_length freq thr rest bloom pool2]
    · simp only []
      rw [List.length_cons, List.length_cons, fillLoop_length freq thr rest bloom pool]

theorem fill_length (freq : String → ℚ) (thr : ℚ) (pool : List String) (st : St) :
    (fill freq thr pool st).length = st.words.length := by
  unfold fill
  split
  · rfl
  · exact fillLoop_length freq thr st.words st.bloom (pool.filter pyIsAlpha)

end Improver

namespace Improver

theorem fillLoop_append_no_ph (freq : String → ℚ) (thr : ℚ) (l2 : List String) :
    ∀ (l1 bloom pool : List String), (∀ w ∈ l1, isPlaceholder w = false) →
      fillLoop freq thr bloom pool (l1 ++ l2) =
        ((l1 ++ (fillLoop freq thr bloom pool l2).1),
         (fillLoop freq thr bloom pool l2).2)
  | [], bloom, pool, _ => by simp
  | w :: l1, bloom, pool, hno => by
    have hw : isPlaceholder w = false := hno w (List.mem_cons_self w l1)
    rw [List.cons_append]
    conv_lhs => unfold fillLoop
    rw [if_neg (by simp [hw])]
    simp only []
    rw [fillLoop_append_no_ph freq thr l2 l1 bloom pool
      (fun x hx => hno x (List.mem_cons_of_mem w hx))]
    rfl

end Improver

/-- Claim C1: the pipeline run of fix_dictionary_size on a one-word
dictionary with an empty frequency list terminates successfully - it writes
its output file and exits without error - yet the emitted word list
contains 1 word, not 65536: the script only reports how many replacement
words it found and never verifies the final count before writing (its own
docstring promises to ensure exactly 65536 words). -/
theorem c1_fix_dictionary_size_writes_wrong_size :
    FixSize.fix_dictionary_size ["cat"] [] = some ["cat"] ∧
    ¬ ((["cat"] : List String).length = 65536) := by
  exact ⟨by decide, by decide⟩

/-- Claim C2 counterexample: the backfill filter of fix_dictionary_size
never checks lowercase or the 12-character maximum, so a run over the
one-word dictionary cat and the frequency line Abcdefghijklmno writes an
output containing a 15-character word with an uppercase letter. -/
theorem c2_counterexample_uppercase_long_word_written :
    FixSize.fix_dictionary_size ["cat"] ["Abcdefghijklmno"] =
      some ["cat", "Abcdefghijklmno"] ∧
    ("Abcdefghijklmno".toList.all Char.isLower = false) ∧
    (12 < "Abcdefghijklmno".length) := by
  exact ⟨by decide, by decide, by decide⟩

/-- Claim C2 as amended: every word the fix_dictionary_size backfill
appends is nonempty, ASCII-alphabetic, at least two characters long and not
already present; neither lowercase nor the 12-character upper bound is
enforced there (and the numbered-padding fallbacks of the sibling scripts
emit digit-bearing words), so the claim's full conjunction does not hold of
the emitted set. -/
theorem c2_fix_size_filter_guarantees (current freqList : List String) (w : String)
    (h : w ∈ freqList.filter (FixSize.okWord current)) :
    w.toList.isEmpty = false ∧ (∀ c ∈ w.toList, c.isAlpha = true) ∧ 2 ≤ w.length ∧
      w ∉ current := by
  have h2 := (List.mem_filter.mp h).2
  unfold FixSize.okWord at h2
  simp only [Bool.and_eq_true, Bool.not_eq_true', decide_eq_true_eq,
    List.all_eq_true] at h2
  obtain ⟨⟨⟨he, hmem⟩, hlen⟩, halpha⟩ := h2
  refine ⟨he, halpha, hlen, ?_⟩
  intro hw
  rw [decide_eq_true hw] at hmem
  cases hmem

/-- Claim C2 witness: the filter guarantee applied to the word dog passing
the backfill filter against the dictionary cat. -/
theorem c2_fix_size_filter_guarantees_witness :
    ("dog".toList.isEmpty = false ∧ (∀ c ∈ "dog".toList, c.isAlpha = true) ∧
      2 ≤ "dog".length ∧ "dog" ∉ (["cat"] : List String)) :=
  c2_fix_size_filter_guarantees ["cat"] ["dog"] "dog" (by decide)

/-- Claim C3: at a six-and-a-half-ten-thousand-line input holding the
banned word cunt and otherwise only words below the frequency threshold,
with a fill pool whose only entry is already present, the pipeline writes
its output file - only the length is checked before the write - and the
written list still contains the line _missing_cunt_, which matches the
placeholder pattern.  The run models a real one in which the wordfreq fill
pool holds no suitable fresh candidate. -/
theorem c3_placeholder_survives_to_written_output :
    ∃ out, Improver.refine_wordlist (fun _ => (0 : ℚ)) 1 500 5
        (fun _ => (0, Improver.Resp.ok [])) ["zz"]
        ("cunt" :: List.replicate 65535 "zz") = some out ∧
      "_missing_cunt_" ∈ out ∧ Improver.isPlaceholder "_missing_cunt_" = true := by
  have hdedup : ("cunt" :: List.replicate 65535 "zz").dedup = ["cunt", "zz"] := by
    have hnm : "cunt" ∉ List.replicate 65535 "zz" := by
      intro h
      exact absurd (List.mem_replicate.mp h).2 (by decide)
    rw [List.dedup_cons_of_not_mem hnm, dedup_replicate_pos "zz" 65535 (by norm_num)]
  have hst1 : Improver.purge (Improver.initSt ("cunt" :: List.replicate 65535 "zz")) =
      ⟨List.replicate 65535 "zz" ++ ["_missing_cunt_"], ["zz", "_missing_cunt_"],
       ["cunt", "zz", "_missing_cunt_"], ["_missing_cunt_"]⟩ := by
    unfold Improver.purge Improver.initSt
    simp only [hdedup]
    have hfilter : Improver.BANNED.filter
        (fun b => decide (b ∈ (["cunt", "zz"] : List String))) = ["cunt"] := by decide
    rw [hfilter]
    simp only [List.foldl_cons, List.foldl_nil]
    unfold Improver.purgeStep
    simp only [List.erase_cons_head]
    congr 1
  have hcand : (List.replicate 65535 "zz" ++ ["_missing_cunt_"]).filter
      (fun w => !Improver.obvious_bad (fun _ => (0 : ℚ)) 1 w && !Improver.isPlaceholder w)
      = [] := by
    rw [List.filter_append, filter_replicate_false _ _ (by decide) 65535]
    decide
  have hfl : Improver.fillLoop (fun _ => (0 : ℚ)) 1 ["cunt", "zz", "_missing_cunt_"]
      ["zz"] ["_missing_cunt_"] = (["_missing_cunt_"], 0) := by decide
  have hfill : Improver.fill (fun _ => (0 : ℚ)) 1 ["zz"]
      ⟨List.replicate 65535 "zz" ++ ["_missing_cunt_"], ["zz", "_missing_cunt_"],
       ["cunt", "zz", "_missing_cunt_"], ["_missing_cunt_"]⟩ =
      List.replicate 65535 "zz" ++ ["_missing_cunt_"] := by
    unfold Improver.fill
    rw [if_neg (by simp)]
    simp only []
    have hpool : (["zz"] : List String).filter Improver.pyIsAlpha = ["zz"] := by decide
    rw [hpool]
    rw [Improver.fillLoop_append_no_ph (fun _ => (0 : ℚ)) 1 ["_missing_cunt_"]
      (List.replicate 65535 "zz") ["cunt", "zz", "_missing_cunt_"] ["zz"]
      (fun w hw => by rw [(List.mem_replicate.mp hw).2]; decide)]
    rw [hfl]
  have hcore : Improver.refine_core (fun _ => (0 : ℚ)) 1 500 5
      (fun _ => (0, Improver.Resp.ok [])) ["zz"] ("cunt" :: List.replicate 65535 "zz") =
      some (List.replicate 65535 "zz" ++ ["_missing_cunt_"]) := by
    unfold Improver.refine_core
    rw [hst1]
    simp only []
    rw [hcand]
    have hrb : Improver.runBatches 5 (fun _ => (0 : ℚ)) 1
        (fun _ => (0, Improver.Resp.ok [])) (Improver.chunked 500 []) 0
        ⟨List.replicate 65535 "zz" ++ ["_missing_cunt_"], ["zz", "_missing_cunt_"],
         ["cunt", "zz", "_missing_cunt_"], ["_missing_cunt_"]⟩ =
        some ⟨List.replicate 65535 "zz" ++ ["_missing_cunt_"], ["zz", "_missing_cunt_"],
         ["cunt", "zz", "_missing_cunt_"], ["_missing_cunt_"]⟩ := rfl
    rw [hrb, Option.map_some', hfill]
  have hlen0 : ("cunt" :: List.replicate 65535 "zz").length = 65536 := by
    rw [List.length_cons, List.length_replicate]
  have hlen1 : (List.replicate 65535 "zz" ++ ["_missing_cunt_"]).length = 65536 := by
    rw [List.length_append, List.length_replicate, List.length_singleton]
  refine ⟨(List.replicate 65535 "zz" ++ ["_missing_cunt_"]).insertionSort Improver.strLeRel,
    ?_, ?_, by decide⟩
  · unfold Improver.refine_wordlist
    rw [if_pos hlen0, hcore, Option.some_bind, if_pos hlen1]
  · rw [List.mem_insertionSort]
    exact List.mem_append_right _ (List.mem_singleton_self _)

/-- Claim C10: the refinement pipeline preserves the working list's length
from load to the final check: the banned-word purge and every processed
remove verdict pair the removal with the append of exactly one entry, keep
verdicts and unknown words change nothing, and the placeholder fill
replaces in place; so whenever the pipeline reaches the final check its
list is as long as the input, in particular exactly 65536 for any input
that passed the entry check. -/
theorem c10_refine_core_preserves_length (freq : String → ℚ) (thr : ℚ)
    (batchSize maxRetries : ℕ) (classifier : ℕ → ℕ × Improver.Resp) (pool : List String)
    (words0 ws : List String)
    (h : Improver.refine_core freq thr batchSize maxRetries classifier pool words0 =
      some ws) :
    ws.length = words0.length := by
  unfold Improver.refine_core at h
  simp only [] at h
  rcases Option.map_eq_some'.mp h with ⟨st2, hst2, hf⟩
  have hpurge := Improver.purge_inv (Improver.initSt words0) (Improver.StInv_init words0)
  have hbat := Improver.runBatches_inv maxRetries freq thr classifier _ 0 _ st2
    hpurge.1 hst2
  rw [← hf, Improver.fill_length, hbat.2, hpurge.2]
  rfl

/-- Claim C10 witness: the length-preservation theorem applied to a
concrete one-word run (the pipeline core has no intrinsic 65536
precondition; the entry check supplies it in refine_wordlist). -/
theorem c10_refine_core_preserves_length_witness :
    ((["cat"] : List String)).length = ((["cat"] : List String)).length :=
  c10_refine_core_preserves_length (fun _ => (0 : ℚ)) 0 1 1
    (fun _ => (0, Improver.Resp.ok [])) [] ["cat"] ["cat"] (by decide)

/-- Claim C4 counterexample: a run whose only batch gets a malformed
response completes successfully with every word of the batch implicitly
kept: the parse failure branch skips the batch (no retry is attempted, the
retry loop covers only transport errors), and the batch-level function
returns the state unchanged without consuming any attempt budget. -/
theorem c4_counterexample_malformed_batch_skipped :
    Improver.refine_core (fun _ => (0 : ℚ)) 0 1 5
      (fun _ => (0, Improver.Resp.malformed)) [] ["cat"] = some ["cat"] ∧
    Improver.runBatch 5 (fun _ => (0 : ℚ)) 0 (0, Improver.Resp.malformed)
      (Improver.initSt ["cat"]) = some (Improver.initSt ["cat"]) := by
  exact ⟨by decide, by decide⟩

/-- Claim C4 as amended: only transport-level API errors are retried, and
exhausting all max-retries attempts on them aborts the whole pipeline; a
response that is obtained but cannot be parsed is not retried - the batch
is skipped with all its words implicitly kept - and a response that parses
but names no words likewise leaves the batch's words kept. -/
theorem c4_retry_and_skip_behavior (maxRetries : ℕ) (freq : String → ℚ) (thr : ℚ)
    (cl : ℕ × Improver.Resp) (st : Improver.St) :
    (maxRetries ≤ cl.1 → Improver.runBatch maxRetries freq thr cl st = none) ∧
    (cl.1 < maxRetries → cl.2 = Improver.Resp.malformed →
      Improver.runBatch maxRetries freq thr cl st = some st) ∧
    (cl.1 < maxRetries → cl.2 = Improver.Resp.ok [] →
      Improver.runBatch maxRetries freq thr cl st = some st) := by
  refine ⟨fun h => ?_, fun h h2 => ?_, fun h h2 => ?_⟩
  · unfold Improver.runBatch
    rw [if_pos h]
  · unfold Improver.runBatch
    rw [if_neg (not_le.mpr h), h2]
  · unfold Improver.runBatch
    rw [if_neg (not_le.mpr h), h2]
    rfl

/-- Claim C4 witness: the amended behavior at concrete inputs: five failed
attempts with a retry ceiling of two abort; a malformed response after no
failures is skipped with the state unchanged; an empty parsed response
keeps the state unchanged. -/
theorem c4_retry_and_skip_behavior_witness :
    (Improver.runBatch 2 (fun _ => (0 : ℚ)) 0 (5, Improver.Resp.malformed)
      (Improver.initSt ["cat"]) = none) ∧
    (Improver.runBatch 2 (fun _ => (0 : ℚ)) 0 (0, Improver.Resp.malformed)
      (Improver.initSt ["cat"]) = some (Improver.initSt ["cat"])) ∧
    (Improver.runBatch 2 (fun _ => (0 : ℚ)) 0 (0, Improver.Resp.ok [])
      (Improver.initSt ["cat"]) = some (Improver.initSt ["cat"])) :=
  ⟨(c4_retry_and_skip_behavior 2 (fun _ => (0 : ℚ)) 0 (5, Improver.Resp.malformed)
      (Improver.initSt ["cat"])).1 (by decide),
   (c4_retry_and_skip_behavior 2 (fun _ => (0 : ℚ)) 0 (0, Improver.Resp.malformed)
      (Improver.initSt ["cat"])).2.1 (by decide) rfl,
   (c4_retry_and_skip_behavior 2 (fun _ => (0 : ℚ)) 0 (0, Improver.Resp.ok [])
      (Improver.initSt ["cat"])).2.2 (by decide) rfl⟩

/-- Claim C5 counterexample: on two words of equal frequency the source
ranks ties by descending text (list.sort(reverse=True) reverses the whole
(frequency, word) key), so with target 1 it keeps "ab", while the ranking
the claim states - descending frequency, then lexicographic text - keeps
"aa".  The two orders disagree on this concrete input. -/
theorem c5_counterexample_tie_break_descending :
    LetterGen.trim_to_target (fun _ => (0 : ℚ)) ["aa", "ab"] 1 2 2 = ["ab"] ∧
    LetterGen.trim_to_target_spec (fun _ => (0 : ℚ)) ["aa", "ab"] 1 2 2 = ["aa"] ∧
    LetterGen.trim_to_target (fun _ => (0 : ℚ)) ["aa", "ab"] 1 2 2 ≠
      LetterGen.trim_to_target_spec (fun _ => (0 : ℚ)) ["aa", "ab"] 1 2 2 := by
  refine ⟨by decide, by decide, by decide⟩

/-- Claim C5 as amended: trimming ranks candidates by the total order
"descending frequency, ties by descending lexicographic text" and, whenever
at least target of the set's words match the length pattern (words failing
it are silently dropped first), keeps exactly the top target of the
matching ones; the result depends only on the candidate set (it is
invariant under permutation of its enumeration), so two runs over the
identical accepted set produce the identical list. -/
theorem c5_trim_deterministic_total_order
    (freq : String → ℚ) (l1 l2 : List String) (target minLen maxLen : ℕ)
    (hperm : l1.Perm l2) :
    LetterGen.trim_to_target freq l1 target minLen maxLen =
      LetterGen.trim_to_target freq l2 target minLen maxLen ∧
    (target ≤ (l1.filter (LetterGen.make_word_re minLen maxLen)).length →
      (LetterGen.trim_to_target freq l1 target minLen maxLen).length = target) := by
  constructor
  · unfold LetterGen.trim_to_target
    have hp : ((l1.filter (LetterGen.make_word_re minLen maxLen)).map
        (fun w => (freq w, w))).Perm
        ((l2.filter (LetterGen.make_word_re minLen maxLen)).map (fun w => (freq w, w))) :=
      (hperm.filter _).map _
    have hsorteq :
        List.insertionSort LetterGen.trimRel
          ((l1.filter (LetterGen.make_word_re minLen maxLen)).map (fun w => (freq w, w))) =
        List.insertionSort LetterGen.trimRel
          ((l2.filter (LetterGen.make_word_re minLen maxLen)).map (fun w => (freq w, w))) :=
      List.eq_of_perm_of_sorted
        ((List.perm_insertionSort _ _).trans (hp.trans (List.perm_insertionSort _ _).symm))
        (List.sorted_insertionSort _ _) (List.sorted_insertionSort _ _)
    simp only [hsorteq]
  · intro hlen
    unfold LetterGen.trim_to_target
    have hslen : (List.insertionSort LetterGen.trimRel
        ((l1.filter (LetterGen.make_word_re minLen maxLen)).map
          (fun w => (freq w, w)))).length =
        (l1.filter (LetterGen.make_word_re minLen maxLen)).length := by
      rw [(List.perm_insertionSort _ _).length_eq, List.length_map]
    simp only [List.length_map, List.length_take, hslen]
    exact Nat.min_eq_left hlen

/-- Claim C5 witness: the amended trimming theorem applied to two
enumerations of a mixed set - aa and ab match the 2-2 length pattern, x
does not and is dropped: both runs agree and the result has exactly the
target length. -/
theorem c5_trim_deterministic_total_order_witness :
    (LetterGen.trim_to_target (fun _ => (0 : ℚ)) ["x", "ab", "aa"] 1 2 2 =
      LetterGen.trim_to_target (fun _ => (0 : ℚ)) ["x", "aa", "ab"] 1 2 2) ∧
    (LetterGen.trim_to_target (fun _ => (0 : ℚ)) ["x", "ab", "aa"] 1 2 2).length = 1 := by
  have h := c5_trim_deterministic_total_order (fun _ => (0 : ℚ)) ["x", "ab", "aa"]
    ["x", "aa", "ab"] 1 2 2 ((List.Perm.swap "aa" "ab" []).cons "x")
  exact ⟨h.1, h.2 (by decide)⟩

/-- Claim C7: acceptance is monotone under threshold relaxation: with the
same banned set, length window and proper-noun setting, a word valid at a
stricter threshold t1 stays valid at any relaxed threshold t2 <= t1. -/
theorem c7_is_valid_monotone_in_threshold
    (freq : String → ℚ) (word : String) (t1 t2 : ℚ) (banned : List String)
    (minLen maxLen : ℕ) (allowProper : Bool)
    (hrel : t2 ≤ t1)
    (hvalid : LetterGen.is_valid freq word t1 banned minLen maxLen allowProper = true) :
    LetterGen.is_valid freq word t2 banned minLen maxLen allowProper = true := by
  unfold LetterGen.is_valid at hvalid ⊢
  by_cases hb : word ∈ banned
  · simp [hb] at hvalid
  by_cases hre : LetterGen.make_word_re minLen maxLen word = true
  case neg => simp [hb, hre] at hvalid
  by_cases hf : freq word < t1
  · simp [hb, hre, hf] at hvalid
  have hf2 : ¬ freq word < t2 := fun h => hf (lt_of_lt_of_le h hrel)
  by_cases hp : (!allowProper && LetterGen.firstIsUpper word) = true
  · simp [hb, hre, hf, hp] at hvalid
  · simp [hb, hre, hf2, hp]

/-- Claim C7 witness: the monotonicity theorem applied at a concrete word
and thresholds 3 >= 2. -/
theorem c7_is_valid_monotone_in_threshold_witness :
    LetterGen.is_valid (fun _ => (3 : ℚ)) "cat" 2 LetterGen.DEFAULT_BANNED 3 7 false = true :=
  c7_is_valid_monotone_in_threshold (fun _ => (3 : ℚ)) "cat" 3 2
    LetterGen.DEFAULT_BANNED 3 7 false (by norm_num) (by decide)

/-- Claim C9 counterexample: tie is a regular base (not a key of the
irregular table) ending in ie, yet the expander's output does not contain
tying: the -ing rule only elides the final e, producing tiing.  There is no
ie-to-ying rule in generate_all_forms. -/
theorem c9_counterexample_tie_has_no_ying_form :
    TrulyReadable.lookupIrregular "tie" TrulyReadable.irregular = none ∧
    TrulyReadable.endsWithStr "tie" "ie" = true ∧
    "tying" ∉ TrulyReadable.generate_all_forms "tie" ∧
    "tiing" ∈ TrulyReadable.generate_all_forms "tie" := by
  refine ⟨by decide, by decide, by decide, by decide⟩

/-- Claim C9 as amended: for every regular base (not a key of the irregular
table) that ends in a silent e - including -ie bases - and is short enough
for the length filter, the expander's output contains the form with the
final e elided before -ing (so tie yields tiing); no ie-to-ying replacement
exists. -/
theorem c9_e_elision_before_ing (base : String)
    (hirr : TrulyReadable.lookupIrregular base TrulyReadable.irregular = none)
    (he : TrulyReadable.endsWithStr base "e" = true)
    (hee : TrulyReadable.endsWithStr base "ee" = false)
    (hlen : base.length ≤ 10) :
    (TrulyReadable.dropLastStr base ++ "ing") ∈ TrulyReadable.generate_all_forms base := by
  have hne : base.toList ≠ [] := by
    intro h0
    rw [TrulyReadable.endsWithStr, h0] at he
    exact absurd he (by decide)
  have hlen1 : 1 ≤ base.toList.length := by
    cases h : base.toList with
    | nil => exact absurd h hne
    | cons a l => simp [h]
  have hlistlen : base.toList.length = base.length := rfl
  have hflen : (TrulyReadable.dropLastStr base ++ "ing").length = base.length + 2 := by
    rw [String.length_append, TrulyReadable.dropLastStr, String.length_mk,
      List.length_dropLast]
    have hing : ("ing" : String).length = 3 := rfl
    omega
  unfold TrulyReadable.generate_all_forms
  rw [hirr]
  rw [List.mem_filter]
  constructor
  · simp only [he, hee, Bool.not_false, Bool.and_self, Bool.true_and, Bool.and_true,
      if_true, List.mem_cons]
    tauto
  · simp only [TrulyReadable.lenOK, hflen, Bool.and_eq_true, decide_eq_true_eq]
    omega

/-- Claim C9 witness: the amended elision theorem applied at the base tie,
whose expansion contains tiing. -/
theorem c9_e_elision_before_ing_witness :
    (TrulyReadable.dropLastStr "tie" ++ "ing") ∈ TrulyReadable.generate_all_forms "tie" :=
  c9_e_elision_before_ing "tie" (by decide) (by decide) (by decide) (by decide)

/-- Claim C6: in the main loop the acceptance threshold is never raised and
never recomputed: after every executed cycle it either kept its value or
dropped by exactly loosen-step, a drop happens only when the guard
freq - step >= min-freq holds, so with an initial threshold at least
min-freq the invariant min-freq <= freq holds after every cycle (and with a
nonnegative step the thresholds are nonincreasing, i.e. only ever
lowered). -/
theorem c6_threshold_floor_invariant
    (cfg : LetterGen.LoopCfg) (oracle : ℕ → ℕ × ℕ) (fuel : ℕ) (freq0 : ℚ)
    (res : LetterGen.LoopResult)
    (hmin : cfg.minFreq ≤ freq0)
    (hrun : LetterGen.run_main_loop cfg oracle fuel freq0 = some res) :
    (∀ f ∈ res.trace, cfg.minFreq ≤ f) ∧
    List.Chain' (fun a b => b = a ∨ b = a - cfg.loosenStep) (freq0 :: res.trace) ∧
    (0 ≤ cfg.loosenStep → List.Chain' (fun a b : ℚ => b ≤ a) (freq0 :: res.trace)) := by
  have h := LetterGen.runLoop_trace_aux cfg oracle freq0 fuel 1 0 freq0 [] res hrun hmin
    (by simp) (List.chain'_singleton _) (by simp)
  refine ⟨h.1, h.2, fun hstep => h.2.imp ?_⟩
  intro a b hab
  rcases hab with rfl | rfl
  · exact le_refl _
  · linarith

/-- Claim C6 witness: a concrete run that stalls twice from threshold 3
with step 1 and floor 1, then aborts: the trace is 2, 1, every entry is
at least the floor, and each cycle keeps or lowers the threshold by the
step. -/
theorem c6_threshold_floor_invariant_witness :
    (∀ f ∈ ((⟨1, 2, [2, 1], LetterGen.ExitReason.aborted⟩ : LetterGen.LoopResult)).trace,
      ((⟨2, 5, true, 1, 1⟩ : LetterGen.LoopCfg)).minFreq ≤ f) ∧
    List.Chain'
      (fun a b => b = a ∨ b = a - ((⟨2, 5, true, 1, 1⟩ : LetterGen.LoopCfg)).loosenStep)
      ((3 : ℚ) :: ((⟨1, 2, [2, 1], LetterGen.ExitReason.aborted⟩ :
        LetterGen.LoopResult)).trace) ∧
    (0 ≤ ((⟨2, 5, true, 1, 1⟩ : LetterGen.LoopCfg)).loosenStep →
      List.Chain' (fun a b : ℚ => b ≤ a)
        ((3 : ℚ) :: ((⟨1, 2, [2, 1], LetterGen.ExitReason.aborted⟩ :
          LetterGen.LoopResult)).trace)) :=
  c6_threshold_floor_invariant ⟨2, 5, true, 1, 1⟩ (fun _ => (0, 0)) 5 3
    ⟨1, 2, [2, 1], LetterGen.ExitReason.aborted⟩ (by norm_num)
    (by norm_num [LetterGen.run_main_loop, LetterGen.runLoop])

/-- Claim C8: with max-cycles at least 1 the main loop always terminates:
within max-cycles + 1 modelled iterations it returns, having executed at
most max-cycles alphabet passes (the guard then forces the abort); and each
per-letter generation loop of alphabet_pass terminates within cap + 1
queries, because every non-final query strictly grows the per-letter seen
set, which is bounded by the cap. -/
theorem c8_main_loop_terminates_bounded
    (cfg : LetterGen.LoopCfg) (oracle : ℕ → ℕ × ℕ) (freq0 : ℚ)
    (hmax : 1 ≤ cfg.maxCycles) :
    (∃ res, LetterGen.run_main_loop cfg oracle (cfg.maxCycles + 1) freq0 = some res ∧
      res.passes ≤ cfg.maxCycles) ∧
    (∀ (cap : ℕ) (valid : String → Bool) (responses : ℕ → List String) (k : ℕ)
      (finalWords seen : List String),
      ∃ out, LetterGen.letterLoop cap valid responses (cap + 1) k finalWords seen =
        some out) := by
  constructor
  · rcases LetterGen.runLoop_terminates_aux cfg oracle hmax (cfg.maxCycles + 1) 1 0 freq0 []
      (by omega) (by omega) (by omega) with ⟨res, hres, hp⟩
    exact ⟨res, hres, by omega⟩
  · intro cap valid responses k finalWords seen
    exact LetterGen.letterLoop_terminates cap valid responses (cap + 1) k finalWords seen
      (by omega) (by omega)

/-- Claim C8 witness: the termination bound applied at a concrete
configuration with max-cycles 1. -/
theorem c8_main_loop_terminates_bounded_witness :
    (∃ res, LetterGen.run_main_loop (⟨1, 0, false, 0, 0⟩ : LetterGen.LoopCfg)
      (fun _ => (0, 0)) 2 0 = some res ∧ res.passes ≤ 1) ∧
    (∀ (cap : ℕ) (valid : String → Bool) (responses : ℕ → List String) (k : ℕ)
      (finalWords seen : List String),
      ∃ out, LetterGen.letterLoop cap valid responses (cap + 1) k finalWords seen =
        some out) :=
  c8_main_loop_terminates_bounded (⟨1, 0, false, 0, 0⟩ : LetterGen.LoopCfg)
    (fun _ => (0, 0)) 0 (by decide)
